import Mathlib

/-
Verification of the data-recombination augmenter (src/data_recombination.py).

Strings are modelled as lists of characters (Python string slicing `s[a:b]`
becomes `(s.take b).drop a`, which has the same clamping behaviour for
non-negative indices).  Spans are pairs of natural numbers, half-open
intervals into a string.  Exceptions are modelled with `Except String`.
The external collaborators of the module (the `Domain` alignment extractor
and the `Grammar` rule store) are passed in as parameters respectively
modelled as plain rule lists, following the collaborator contracts of the spec.
-/

namespace DataRecomb

abbrev Txt := List Char

abbrev Span := Nat × Nat

abbrev Swap := Span × Txt

/-- A grammar rule: (category, x_pattern, y_pattern). -/
abbrev Rule := Txt × Txt × Txt

/-- An alignment: (category, x_span, y_span). -/
abbrev Alignment := Txt × Span × Span

/-- Python slice s[a:b] for non-negative a, b (both clamped to the length). -/
def pySlice (s : Txt) (p : Span) : Txt := (s.take p.2).drop p.1

/-- Python comparison of spans as int pairs: p strictly greater than q
(lexicographic). -/
def spanGtLex (p q : Span) : Bool :=
  decide (q.1 < p.1) || (decide (p.1 = q.1) && decide (q.2 < p.2))

/-- One step of a stable insertion sort in descending span order: the new
swap is placed before the first element whose span is strictly smaller, so
swaps with equal spans keep their relative order. -/
def insertSwapDesc (sw : Swap) : List Swap → List Swap
  | [] => [sw]
  | b :: bs => if spanGtLex sw.1 b.1 then sw :: b :: bs else b :: insertSwapDesc sw bs

/-- Model of `swaps.sort(key=lambda x: x[0], reverse=True)`: a stable sort
by the span component, descending lexicographically. -/
def sortSwaps (l : List Swap) : List Swap :=
  l.foldl (fun acc sw => insertSwapDesc sw acc) []

def nonDisjointMsg : String := "Non-disjoint spans detected"

/-- The loop of Augmenter.splice: process the (pre-sorted, right-to-left)
swap list, keeping the high-water mark cur_left; raise ValueError when a
span end exceeds the mark. -/
def spliceGo : List Swap → Nat → Txt → Except String Txt
  | [], _, s => .ok s
  | ((a, b), rep) :: rest, curLeft, s =>
    if curLeft < b then .error nonDisjointMsg
    else spliceGo rest a (s.take a ++ rep ++ s.drop b)

/-- Augmenter.splice: sort the swaps by span, descending, then replace from
right to left, starting with the high-water mark len(s). -/
def splice (s : Txt) (swaps : List Swap) : Except String Txt :=
  spliceGo (sortSwaps swaps) s.length s

/-- Decimal digits of a natural number, most significant first, as produced
by the Python percent-d formatting of a non-negative int. -/
def natDecimal (n : Nat) : List Char := Nat.toDigits 10 n

/-- The placeholder text built by the induction strategies:
percent-s underscore percent-d applied to (category, anchor). -/
def token (cat : Txt) (anchor : Nat) : Txt := cat ++ '_' :: natDecimal anchor

/-- Helper for `pyDedup`: keep the first occurrence of each element. -/
def pyDedupGo [DecidableEq α] (seen : List α) : List α → List α
  | [] => []
  | a :: rest => if a ∈ seen then pyDedupGo seen rest else a :: pyDedupGo (a :: seen) rest

/-- Model of Python `list(set(l))`: the distinct elements of l.  CPython
returns them in an unspecified (hash-dependent) order; the model fixes the
first-occurrence order. -/
def pyDedup [DecidableEq α] (l : List α) : List α := pyDedupGo [] l

/-- The x-side swap list of the entity/nesting template construction:
one swap per distinct (x_span, token) pair, token keyed by the inner
category and the x-span start. -/
def xSwapsOf (al : List Alignment) : List Swap :=
  pyDedup (al.map fun t => (t.2.1, token t.1 t.2.1.1))

/-- The y-side swap list of the entity/nesting template construction:
one swap per alignment (no deduplication), the token again keyed by the
inner category and the x-span start. -/
def ySwapsOf (al : List Alignment) : List Swap :=
  al.map fun t => (t.2.2, token t.1 t.2.1.1)

/-- The template-rule construction shared by the entity and the nesting
strategies: splice the x-side swaps into x_str, the y-side swaps into
y_str, and keep the original category.  A splice failure aborts the whole
induction, the x side being spliced first. -/
def templateRule (cat xStr yStr : Txt) (al : List Alignment) : Except String Rule :=
  match splice xStr (xSwapsOf al), splice yStr (ySwapsOf al) with
  | .ok xn, .ok yn => .ok (cat, xn, yn)
  | .error e, _ => .error e
  | _, .error e => .error e

/-- The literal entity rules: for every dataset pair and every alignment
returned by the domain on it, one rule (category, x slice, y slice). -/
def entityLiteralRules (domAlign : Txt → Txt → List Alignment)
    (dataset : List (Txt × Txt)) : List Rule :=
  (dataset.map fun p =>
    (domAlign p.1 p.2).map fun t => (t.1, pySlice p.1 t.2.1, pySlice p.2 t.2.2)).flatten

/-- The templated rules the entity strategy derives from the base grammar,
one per base rule, in order. -/
def entityTemplates (domAlign : Txt → Txt → List Alignment) :
    List Rule → Except String (List Rule)
  | [] => .ok []
  | r :: rest =>
    match templateRule r.1 r.2.1 r.2.2 (domAlign r.2.1 r.2.2),
        entityTemplates domAlign rest with
    | .ok t, .ok ts => .ok (t :: ts)
    | .error e, _ => .error e
    | _, .error e => .error e

/-- Augmenter.induce_entity_grammar: the literal entity rules from the raw
dataset followed by one templated rule per base-grammar rule. -/
def induce_entity_grammar (domAlign : Txt → Txt → List Alignment)
    (dataset : List (Txt × Txt)) (startRules : List Rule) : Except String (List Rule) :=
  match entityTemplates domAlign startRules with
  | .ok ts => .ok (entityLiteralRules domAlign dataset ++ ts)
  | .error e => .error e

/-- Augmenter.induce_nesting_grammar: for every base rule, the productions
returned by the domain (inserted verbatim) followed by the templated rule
for that base rule. -/
def induce_nesting_grammar (domNest : Txt → Txt → List Alignment × List Rule) :
    List Rule → Except String (List Rule)
  | [] => .ok []
  | r :: rest =>
    match templateRule r.1 r.2.1 r.2.2 (domNest r.2.1 r.2.2).1,
        induce_nesting_grammar domNest rest with
    | .ok t, .ok ts => .ok ((domNest r.2.1 r.2.2).2 ++ t :: ts)
    | .error e, _ => .error e
    | _, .error e => .error e

/-- Modelled from the spec: the designated ROOT category of the Grammar class
symbol (the grammar storage lives outside src/; the spec only fixes a
distinguished root category). -/
def ROOT_CAT : Txt := "$ROOT".data

def SENTENCE_CAT : Txt := "$sentence".data

/-- The module-level END_OF_SENTENCE separator constant. -/
def END_OF_SENTENCE : Txt := "[SEP]".data

/-- Python str.join: interleave the separator between the parts. -/
def joinWith (sep : Txt) : List Txt → Txt
  | [] => []
  | [x] => x
  | x :: y :: xs => x ++ sep ++ joinWith sep (y :: xs)

/-- The i-th sentence placeholder of the concatenation strategy. -/
def sentenceTok (i : Nat) : Txt := "$sentence_".data ++ natDecimal i

/-- The root pattern of the concatenation strategy: the sentence
placeholders 0 .. k-1 joined by the separator padded with single spaces
(Python range clamps a negative count to zero). -/
def rootConcatStr (k : Int) : Txt :=
  joinWith (' ' :: (END_OF_SENTENCE ++ [' '])) ((List.range k.toNat).map sentenceTok)

/-- Augmenter.induce_concat_grammar: copy each base rule, re-categorising
root rules under the sentence category, then add the single new root rule
whose two sides are both rootConcatStr. -/
def induce_concat_grammar (startRules : List Rule) (k : Int) : List Rule :=
  (startRules.map fun r => if r.1 = ROOT_CAT then (SENTENCE_CAT, r.2.1, r.2.2) else r)
  ++ [(ROOT_CAT, rootConcatStr k, rootConcatStr k)]

/-- Decimal accumulation over a digit list; fails at the first non-digit. -/
def digitsValGo (acc : Nat) : List Char → Option Nat
  | [] => some acc
  | c :: rest => if c.isDigit then digitsValGo (acc * 10 + (c.toNat - 48)) rest else none

/-- Value of a non-empty all-digit string. -/
def digitsVal : List Char → Option Nat
  | [] => none
  | l => digitsValGo 0 l

/-- Modelled from Python int(str) restricted to optional-sign decimal
literals.  CPython additionally strips surrounding whitespace and accepts
underscore digit grouping; those forms are not modelled and no theorem
below evaluates the model on them. -/
def pyInt : List Char → Option Int
  | '+' :: rest => (digitsVal rest).map Int.ofNat
  | '-' :: rest => (digitsVal rest).map fun n => -(Int.ofNat n)
  | l => (digitsVal l).map Int.ofNat

def intErrMsg : String := "invalid literal for int() with base 10"

/-- Boolean test that `pat` starts the text `s`. -/
def leadsWith : Txt → Txt → Bool
  | [], _ => true
  | _ :: _, [] => false
  | a :: as, b :: bs => a == b && leadsWith as bs

/-- Modelled from the spec: Grammar(dataset) builds the base grammar with
one literal rule per example under the generic ROOT category. -/
def baseGrammar (dataset : List (Txt × Txt)) : List Rule :=
  dataset.map fun p => (ROOT_CAT, p.1, p.2)

/-- One iteration of the Augmenter.setup_grammar loop: dispatch on the
strategy identifier; identifiers matching no branch leave the grammar
unchanged. -/
def setupStep (domAlign : Txt → Txt → List Alignment)
    (domNest : Txt → Txt → List Alignment × List Rule)
    (dataset : List (Txt × Txt)) (g : List Rule) (t : Txt) : Except String (List Rule) :=
  if t = "entity".data then induce_entity_grammar domAlign dataset g
  else if t = "nesting".data then induce_nesting_grammar domNest g
  else if leadsWith "concat".data t then
    match pyInt (t.drop 6) with
    | none => .error intErrMsg
    | some k => .ok (induce_concat_grammar g k)
  else .ok g

/-- Augmenter.setup_grammar: fold the strategy steps over the base grammar
built from the dataset. -/
def setup_grammar (domAlign : Txt → Txt → List Alignment)
    (domNest : Txt → Txt → List Alignment × List Rule)
    (dataset : List (Txt × Txt)) (augTypes : List Txt) : Except String (List Rule) :=
  augTypes.foldlM (setupStep domAlign domNest dataset) (baseGrammar dataset)

/-- The Augmenter.sample rejection loop.  The stochastic
generator is modelled as a stream of draws; `fuel` bounds the number of
loop iterations in the model, `none` meaning the loop has not returned
within that many iterations (the Python loop is unbounded). -/
def sampleGo (dsSet : List (Txt × Txt)) (draws : Nat → Txt × Txt) (num : Nat) :
    Nat → Nat → List (Txt × Txt) → Option (List (Txt × Txt))
  | fuel, i, acc =>
    if num ≤ acc.length then some acc
    else
      match fuel with
      | 0 => none
      | f + 1 =>
        if draws i ∈ dsSet then sampleGo dsSet draws num f (i + 1) acc
        else sampleGo dsSet draws num f (i + 1) (acc ++ [draws i])

/-- Augmenter.sample(num): membership in `set(dataset)` is membership in
the dataset list (Python set membership is exact pair equality). -/
def sample (dataset : List (Txt × Txt)) (draws : Nat → Txt × Txt) (num fuel : Nat) :
    Option (List (Txt × Txt)) :=
  sampleGo dataset draws num fuel 0 []

/-- Number of (possibly overlapping) occurrences of `pat` in `s`; used to
count how often a placeholder token appears in a pattern. -/
def countOccs (pat : Txt) : Txt → Nat
  | [] => 0
  | c :: rest => (if leadsWith pat (c :: rest) then 1 else 0) + countOccs pat rest

/-- Modelled from the spec (claim C5 wording): the x-side deduplication key
the spec prescribes, namely the pair (inner category, x-span start). -/
def specXKeys (al : List Alignment) : List (Txt × Nat) :=
  pyDedup (al.map fun t => (t.1, t.2.1.1))

/-- The x-side deduplication key the code actually uses, up to the token
encoding: the pair (inner category, whole x-span). -/
def xKeySpans (al : List Alignment) : List (Txt × Span) :=
  pyDedup (al.map fun t => (t.1, t.2.1))

/-- Specification-side replacement function: the swaps are listed in
ascending span order with absolute coordinates into the original string;
`pos` is the reading cursor.  Text between the cursor and the next span is
copied verbatim, the text of each span is replaced by its replacement, and the
tail after the last span is copied verbatim. -/
def replaceAll (s : Txt) : Nat → List Swap → Txt
  | pos, [] => s.drop pos
  | pos, ((a, b), rep) :: rest => (s.take a).drop pos ++ rep ++ replaceAll s b rest

/-- Replacement along a descending-ordered swap list: the rightmost span
splits the string; the part before it is rewritten recursively. -/
def descReplace (s : Txt) : List Swap → Txt
  | [] => s
  | ((a, b), rep) :: rest => descReplace (s.take a) rest ++ rep ++ s.drop b

/-- The sequence of high-water-mark checks the splice loop performs:
each span end is at most the current mark, the mark becoming the span
start. -/
def chainCond : List Swap → Nat → Prop
  | [], _ => True
  | ((a, b), _) :: rest, cur => b ≤ cur ∧ chainCond rest a

/-- Non-strict lexicographic order on spans. -/
def spanLeLex (p q : Span) : Prop := p.1 < q.1 ∨ (p.1 = q.1 ∧ p.2 ≤ q.2)

/-- Descending order between successive swaps of a sorted swap list. -/
def swapDescOrder (p q : Swap) : Prop := spanLeLex q.1 p.1

/-- Two half-open spans intersect. -/
def spanOverlap (p q : Span) : Prop := max p.1 q.1 < min p.2 q.2

instance (p q : Span) : Decidable (spanOverlap p q) := by
  unfold spanOverlap
  infer_instance

instance (p q : Span) : Decidable (spanLeLex p q) := by
  unfold spanLeLex
  infer_instance

/-- Total length of the replaced spans of a swap list. -/
def sumSpanLens (l : List Swap) : Nat := (l.map fun sw => sw.1.2 - sw.1.1).sum

/-- Total length of the replacement texts of a swap list. -/
def sumRepLens (l : List Swap) : Nat := (l.map fun sw => sw.2.length).sum

end DataRecomb

namespace DataRecomb

theorem spanGtLex_false_iff (p q : Span) : spanGtLex p q = false ↔ spanLeLex p q := by
  simp only [spanGtLex, spanLeLex, Bool.or_eq_false_iff, Bool.and_eq_false_iff,
    decide_eq_false_iff_not, Decidable.not_not, decide_eq_true_eq]
  omega

theorem spanGtLex_true_le (p q : Span) (h : spanGtLex p q = true) : spanLeLex q p := by
  simp only [spanGtLex, Bool.or_eq_true, Bool.and_eq_true, decide_eq_true_eq] at h
  simp only [spanLeLex]
  omega

theorem spanLeLex_trans {a b c : Span} (h1 : spanLeLex a b) (h2 : spanLeLex b c) :
    spanLeLex a c := by
  simp only [spanLeLex] at *
  omega

theorem insertSwapDesc_perm (sw : Swap) (l : List Swap) :
    List.Perm (insertSwapDesc sw l) (sw :: l) := by
  induction l with
  | nil => simp [insertSwapDesc]
  | cons b bs ih =>
    simp only [insertSwapDesc]
    by_cases h : spanGtLex sw.1 b.1 = true
    · simp [h]
    · simp only [h, if_false, Bool.false_eq_true]
      exact (ih.cons b).trans (List.Perm.swap sw b bs)

theorem sortSwapsAux_perm (l : List Swap) :
    ∀ acc : List Swap,
      List.Perm (l.foldl (fun acc sw => insertSwapDesc sw acc) acc) (acc ++ l) := by
  induction l with
  | nil => intro acc; simp
  | cons sw rest ih =>
    intro acc
    simp only [List.foldl_cons]
    refine (ih (insertSwapDesc sw acc)).trans ?_
    refine (List.Perm.append_right rest (insertSwapDesc_perm sw acc)).trans ?_
    exact List.perm_middle.symm

theorem sortSwaps_perm (l : List Swap) : List.Perm (sortSwaps l) l := by
  simpa [sortSwaps] using sortSwapsAux_perm l []

theorem insertSwapDesc_sorted {sw : Swap} {l : List Swap}
    (h : l.Pairwise swapDescOrder) :
    (insertSwapDesc sw l).Pairwise swapDescOrder := by
  induction l with
  | nil => simp [insertSwapDesc]
  | cons b bs ih =>
    rcases List.pairwise_cons.mp h with ⟨hb, hbs⟩
    simp only [insertSwapDesc]
    by_cases hgt : spanGtLex sw.1 b.1 = true
    · simp only [hgt, if_true]
      refine List.pairwise_cons.mpr ⟨?_, h⟩
      intro x hx
      rcases List.mem_cons.mp hx with rfl | hx
      · exact spanGtLex_true_le _ _ hgt
      · exact spanLeLex_trans (hb x hx) (spanGtLex_true_le _ _ hgt)
    · simp only [hgt, if_false, Bool.false_eq_true]
      refine List.pairwise_cons.mpr ⟨?_, ih hbs⟩
      intro x hx
      have hx2 : x ∈ sw :: bs := (insertSwapDesc_perm sw bs).mem_iff.mp hx
      rcases List.mem_cons.mp hx2 with rfl | hx2
      · exact (spanGtLex_false_iff _ _).mp (Bool.eq_false_iff.mpr hgt)
      · exact hb x hx2

theorem sortSwapsAux_sorted (l : List Swap) :
    ∀ acc : List Swap, acc.Pairwise swapDescOrder →
      (l.foldl (fun acc sw => insertSwapDesc sw acc) acc).Pairwise swapDescOrder := by
  induction l with
  | nil => intro acc h; exact h
  | cons sw rest ih =>
    intro acc h
    simp only [List.foldl_cons]
    exact ih _ (insertSwapDesc_sorted h)

theorem sortSwaps_sorted (l : List Swap) : (sortSwaps l).Pairwise swapDescOrder :=
  sortSwapsAux_sorted l [] List.Pairwise.nil

end DataRecomb

namespace DataRecomb

theorem spliceGo_ok_chain :
    ∀ (l : List Swap) (cur : Nat) (s t : Txt), spliceGo l cur s = .ok t → chainCond l cur := by
  intro l
  induction l with
  | nil => intro cur s t _; trivial
  | cons sw rest ih =>
    intro cur s t h
    obtain ⟨⟨a, b⟩, rep⟩ := sw
    simp only [spliceGo] at h
    by_cases hb : cur < b
    · simp [hb] at h
    · simp only [hb, if_false] at h
      exact ⟨Nat.le_of_not_lt hb, ih _ _ _ h⟩

theorem spliceGo_error_msg :
    ∀ (l : List Swap) (cur : Nat) (s : Txt) (e : String),
      spliceGo l cur s = .error e → e = nonDisjointMsg := by
  intro l
  induction l with
  | nil => intro cur s e h; simp [spliceGo] at h
  | cons sw rest ih =>
    intro cur s e h
    obtain ⟨⟨a, b⟩, rep⟩ := sw
    simp only [spliceGo] at h
    by_cases hb : cur < b
    · simp only [hb, if_true, Except.error.injEq] at h
      exact h.symm
    · simp only [hb, if_false] at h
      exact ih _ _ _ h

theorem spliceGo_append :
    ∀ (l : List Swap) (cur : Nat) (p t : Txt),
      (∀ sw ∈ l, sw.1.1 ≤ sw.1.2) → cur ≤ p.length →
      spliceGo l cur (p ++ t) = (spliceGo l cur p).map (fun r => r ++ t) := by
  intro l
  induction l with
  | nil => intro cur p t _ _; rfl
  | cons sw rest ih =>
    intro cur p t hwf hcur
    obtain ⟨⟨a, b⟩, rep⟩ := sw
    have hab : a ≤ b := hwf ((a, b), rep) (by simp)
    simp only [spliceGo]
    by_cases hb : cur < b
    · simp only [hb, if_true]; rfl
    · have hble : b ≤ cur := Nat.le_of_not_lt hb
      have hbp : b ≤ p.length := le_trans hble hcur
      have hap : a ≤ p.length := le_trans hab hbp
      simp only [hb, if_false]
      rw [List.take_append_of_le_length hap, List.drop_append_of_le_length hbp]
      have hlen : a ≤ (p.take a ++ rep ++ p.drop b).length := by
        simp [List.length_take]
        omega
      have := ih a (p.take a ++ rep ++ p.drop b) t
        (fun sw hs => hwf sw (List.mem_cons_of_mem _ hs)) hlen
      calc spliceGo rest a (p.take a ++ rep ++ (p.drop b ++ t))
          = spliceGo rest a ((p.take a ++ rep ++ p.drop b) ++ t) := by
            simp [List.append_assoc]
        _ = (spliceGo rest a (p.take a ++ rep ++ p.drop b)).map (fun r => r ++ t) := this

theorem spliceGo_eq_descReplace :
    ∀ (l : List Swap) (cur : Nat) (s : Txt),
      (∀ sw ∈ l, sw.1.1 ≤ sw.1.2) → chainCond l cur → cur ≤ s.length →
      spliceGo l cur s = .ok (descReplace s l) := by
  intro l
  induction l with
  | nil => intro cur s _ _ _; rfl
  | cons sw rest ih =>
    intro cur s hwf hchain hcur
    obtain ⟨⟨a, b⟩, rep⟩ := sw
    obtain ⟨hbcur, hchain2⟩ := hchain
    have hab : a ≤ b := hwf ((a, b), rep) (by simp)
    have hbs : b ≤ s.length := le_trans hbcur hcur
    have has : a ≤ s.length := le_trans hab hbs
    have htake : (s.take a).length = a := by simp [List.length_take]; omega
    simp only [spliceGo, Nat.not_lt_of_le hbcur, if_false]
    have h1 : spliceGo rest a (s.take a ++ (rep ++ s.drop b))
        = (spliceGo rest a (s.take a)).map (fun r => r ++ (rep ++ s.drop b)) := by
      apply spliceGo_append rest a (s.take a) (rep ++ s.drop b)
        (fun sw hs => hwf sw (List.mem_cons_of_mem _ hs))
      omega
    have h2 : spliceGo rest a (s.take a) = .ok (descReplace (s.take a) rest) := by
      apply ih a (s.take a) (fun sw hs => hwf sw (List.mem_cons_of_mem _ hs)) hchain2
      omega
    calc spliceGo rest a (s.take a ++ rep ++ s.drop b)
        = spliceGo rest a (s.take a ++ (rep ++ s.drop b)) := by rw [List.append_assoc]
      _ = (spliceGo rest a (s.take a)).map (fun r => r ++ (rep ++ s.drop b)) := h1
      _ = .ok (descReplace (s.take a) rest ++ (rep ++ s.drop b)) := by rw [h2]; rfl
      _ = .ok (descReplace s (((a, b), rep) :: rest)) := by
            simp [descReplace, List.append_assoc]

theorem descReplace_length :
    ∀ (l : List Swap) (cur : Nat) (s : Txt),
      (∀ sw ∈ l, sw.1.1 ≤ sw.1.2) → chainCond l cur → cur ≤ s.length →
      (descReplace s l).length + sumSpanLens l = s.length + sumRepLens l := by
  intro l
  induction l with
  | nil => intro cur s _ _ _; simp [descReplace, sumSpanLens, sumRepLens]
  | cons sw rest ih =>
    intro cur s hwf hchain hcur
    obtain ⟨⟨a, b⟩, rep⟩ := sw
    obtain ⟨hbcur, hchain2⟩ := hchain
    have hab : a ≤ b := hwf ((a, b), rep) (by simp)
    have hbs : b ≤ s.length := le_trans hbcur hcur
    have has : a ≤ s.length := le_trans hab hbs
    have htake : (s.take a).length = a := by simp [List.length_take]; omega
    have hih := ih a (s.take a) (fun sw hs => hwf sw (List.mem_cons_of_mem _ hs)) hchain2
      (by omega)
    simp only [descReplace, sumSpanLens, sumRepLens, List.map_cons, List.sum_cons,
      List.length_append, List.length_drop] at *
    omega

end DataRecomb

namespace DataRecomb

theorem chainCond_endsBound :
    ∀ (l : List Swap) (c M : Nat), chainCond l c → c ≤ M →
      (∀ sw ∈ l, sw.1.1 ≤ M) → ∀ sw ∈ l, sw.1.2 ≤ M := by
  intro l
  induction l with
  | nil => intro c M _ _ _ sw hsw; simp at hsw
  | cons sw rest ih =>
    intro c M hchain hcM hstarts q hq
    obtain ⟨⟨a, b⟩, rep⟩ := sw
    obtain ⟨hbc, hchain2⟩ := hchain
    rcases List.mem_cons.mp hq with rfl | hq
    · exact le_trans hbc hcM
    · refine ih a M hchain2 ?_ (fun sw hs => hstarts sw (List.mem_cons_of_mem _ hs)) q hq
      exact hstarts ((a, b), rep) (by simp)

theorem sortedChain_sep :
    ∀ (l : List Swap) (c : Nat), l.Pairwise swapDescOrder → chainCond l c →
      l.Pairwise fun p q => q.1.2 ≤ p.1.1 := by
  intro l
  induction l with
  | nil => intro c _ _; exact List.Pairwise.nil
  | cons sw rest ih =>
    intro c hsort hchain
    obtain ⟨⟨a, b⟩, rep⟩ := sw
    obtain ⟨hbc, hchain2⟩ := hchain
    rcases List.pairwise_cons.mp hsort with ⟨hhead, hrest⟩
    refine List.pairwise_cons.mpr ⟨?_, ih a hrest hchain2⟩
    intro q hq
    refine chainCond_endsBound rest a a hchain2 (le_refl a) ?_ q hq
    intro sw hs
    have := hhead sw hs
    simp only [swapDescOrder, spanLeLex] at this
    omega

theorem sep_not_overlap {p q : Swap} (h : q.1.2 ≤ p.1.1) : ¬ spanOverlap p.1 q.1 := by
  simp only [spanOverlap]
  omega

theorem spanOverlap_symm {p q : Span} (h : spanOverlap p q) : spanOverlap q p := by
  simp only [spanOverlap] at *
  omega

theorem splice_ok_pairwise_disjoint {s : Txt} {swaps : List Swap} {t : Txt}
    (h : splice s swaps = .ok t) :
    swaps.Pairwise fun p q => ¬ spanOverlap p.1 q.1 := by
  have hchain : chainCond (sortSwaps swaps) s.length := spliceGo_ok_chain _ _ _ _ h
  have hsep := sortedChain_sep (sortSwaps swaps) s.length (sortSwaps_sorted swaps) hchain
  have hnd : (sortSwaps swaps).Pairwise fun p q => ¬ spanOverlap p.1 q.1 :=
    hsep.imp fun hle => sep_not_overlap hle
  have hsymm : ∀ {x y : Swap}, ¬ spanOverlap x.1 y.1 → ¬ spanOverlap y.1 x.1 :=
    fun hxy hyx => hxy (spanOverlap_symm hyx)
  exact ((sortSwaps_perm swaps).pairwise_iff hsymm).mp hnd

theorem chainCond_of_disjoint :
    ∀ (l : List Swap) (n : Nat), l.Pairwise swapDescOrder →
      (l.Pairwise fun p q => ¬ spanOverlap p.1 q.1) →
      (∀ sw ∈ l, sw.1.1 < sw.1.2) → (∀ sw ∈ l, sw.1.2 ≤ n) → chainCond l n := by
  intro l
  induction l with
  | nil => intro n _ _ _ _; trivial
  | cons sw rest ih =>
    intro n hsort hdisj hne hbound
    obtain ⟨⟨a, b⟩, rep⟩ := sw
    rcases List.pairwise_cons.mp hsort with ⟨hsHead, hsRest⟩
    rcases List.pairwise_cons.mp hdisj with ⟨hdHead, hdRest⟩
    have hab : a < b := hne ((a, b), rep) (by simp)
    refine ⟨hbound ((a, b), rep) (by simp), ?_⟩
    refine ih a hsRest hdRest (fun sw hs => hne sw (List.mem_cons_of_mem _ hs)) ?_
    intro q hq
    have hno := hdHead q hq
    have hle := hsHead q hq
    simp only [swapDescOrder, spanLeLex] at hle
    simp only [spanOverlap] at hno
    omega

theorem replaceAll_snoc :
    ∀ (m : List Swap) (s : Txt) (pos a b : Nat) (rep : Txt),
      (∀ sw ∈ m, sw.1.1 ≤ sw.1.2 ∧ sw.1.2 ≤ a) →
      replaceAll s pos (m ++ [((a, b), rep)])
        = replaceAll (s.take a) pos m ++ rep ++ s.drop b := by
  intro m
  induction m with
  | nil =>
    intro s pos a b rep _
    simp [replaceAll]
  | cons sw m ih =>
    intro s pos a b rep hm
    obtain ⟨⟨c, d⟩, q⟩ := sw
    obtain ⟨hcd, hda⟩ := hm ((c, d), q) (by simp)
    have hca : c ≤ a := le_trans hcd hda
    simp only [List.cons_append, replaceAll, List.append_eq]
    rw [ih s d a b rep (fun sw hs => hm sw (List.mem_cons_of_mem _ hs))]
    rw [List.take_take, Nat.min_eq_left hca]
    simp [List.append_assoc]

theorem descReplace_eq_replaceAll :
    ∀ (l : List Swap) (s : Txt),
      (l.Pairwise fun p q => q.1.2 ≤ p.1.1) →
      (∀ sw ∈ l, sw.1.1 ≤ sw.1.2) →
      descReplace s l = replaceAll s 0 l.reverse := by
  intro l
  induction l with
  | nil => intro s _ _; simp [descReplace, replaceAll]
  | cons sw rest ih =>
    intro s hsep hwf
    obtain ⟨⟨a, b⟩, rep⟩ := sw
    rcases List.pairwise_cons.mp hsep with ⟨hHead, hRest⟩
    simp only [descReplace, List.reverse_cons]
    rw [ih (s.take a) hRest (fun sw hs => hwf sw (List.mem_cons_of_mem _ hs))]
    rw [replaceAll_snoc rest.reverse s 0 a b rep ?hm]
    case hm =>
      intro sw hs
      have hmem : sw ∈ rest := List.mem_reverse.mp hs
      exact ⟨hwf sw (List.mem_cons_of_mem _ hmem), hHead sw hmem⟩

end DataRecomb

namespace DataRecomb

theorem splice_disjoint_ok {s : Txt} {swaps : List Swap}
    (hdisj : swaps.Pairwise fun p q => ¬ spanOverlap p.1 q.1)
    (hne : ∀ sw ∈ swaps, sw.1.1 < sw.1.2)
    (hin : ∀ sw ∈ swaps, sw.1.2 ≤ s.length) :
    splice s swaps = .ok (descReplace s (sortSwaps swaps)) := by
  have hsymm : ∀ {x y : Swap}, ¬ spanOverlap x.1 y.1 → ¬ spanOverlap y.1 x.1 :=
    fun hxy hyx => hxy (spanOverlap_symm hyx)
  have hdisj2 : (sortSwaps swaps).Pairwise fun p q => ¬ spanOverlap p.1 q.1 :=
    ((sortSwaps_perm swaps).pairwise_iff hsymm).mpr hdisj
  have hne2 : ∀ sw ∈ sortSwaps swaps, sw.1.1 < sw.1.2 :=
    fun sw hs => hne sw ((sortSwaps_perm swaps).mem_iff.mp hs)
  have hin2 : ∀ sw ∈ sortSwaps swaps, sw.1.2 ≤ s.length :=
    fun sw hs => hin sw ((sortSwaps_perm swaps).mem_iff.mp hs)
  have hchain : chainCond (sortSwaps swaps) s.length :=
    chainCond_of_disjoint _ _ (sortSwaps_sorted swaps) hdisj2 hne2 hin2
  exact spliceGo_eq_descReplace _ _ _ (fun sw hs => Nat.le_of_lt (hne2 sw hs)) hchain
    (le_refl _)

theorem chainCond_wf_endsLe :
    ∀ (l : List Swap) (cur : Nat), chainCond l cur →
      (∀ sw ∈ l, sw.1.1 ≤ sw.1.2) → ∀ sw ∈ l, sw.1.2 ≤ cur := by
  intro l
  induction l with
  | nil => intro cur _ _ sw hsw; simp at hsw
  | cons sw rest ih =>
    intro cur hchain hwf q hq
    obtain ⟨⟨a, b⟩, rep⟩ := sw
    obtain ⟨hbc, hchain2⟩ := hchain
    rcases List.mem_cons.mp hq with rfl | hq
    · exact hbc
    · have hab : a ≤ b := hwf ((a, b), rep) (by simp)
      have := ih a hchain2 (fun sw hs => hwf sw (List.mem_cons_of_mem _ hs)) q hq
      omega

theorem splice_single (s : Txt) (a b : Nat) (rep : Txt) (h : b ≤ s.length) :
    splice s [((a, b), rep)] = .ok (s.take a ++ rep ++ s.drop b) := by
  simp [splice, sortSwaps, insertSwapDesc, spliceGo, Nat.not_lt_of_le h]

theorem pyDedupGo_mem [DecidableEq α] :
    ∀ (l seen : List α) (x : α), x ∈ pyDedupGo seen l ↔ x ∈ l ∧ x ∉ seen := by
  intro l
  induction l with
  | nil => intro seen x; simp [pyDedupGo]
  | cons a rest ih =>
    intro seen x
    simp only [pyDedupGo]
    by_cases ha : a ∈ seen
    · rw [if_pos ha]
      by_cases hxa : x = a
      · subst hxa; simp [ih, ha]
      · simp [ih, List.mem_cons, hxa]
    · rw [if_neg ha]
      by_cases hxa : x = a
      · subst hxa; simp [ha]
      · simp [ih, List.mem_cons, hxa]

theorem pyDedup_mem [DecidableEq α] (l : List α) (x : α) : x ∈ pyDedup l ↔ x ∈ l := by
  simp [pyDedup, pyDedupGo_mem]

theorem pyDedupGo_map [DecidableEq α] [DecidableEq β] {f : α → β}
    (hf : Function.Injective f) :
    ∀ (l seen : List α), pyDedupGo (seen.map f) (l.map f) = (pyDedupGo seen l).map f := by
  intro l
  induction l with
  | nil => intro seen; simp [pyDedupGo]
  | cons a rest ih =>
    intro seen
    simp only [List.map_cons, pyDedupGo]
    by_cases ha : a ∈ seen
    · have hfa : f a ∈ seen.map f := List.mem_map.mpr ⟨a, ha, rfl⟩
      rw [if_pos hfa, if_pos ha, ih]
    · have hfa : f a ∉ seen.map f := by
        intro hc
        rcases List.mem_map.mp hc with ⟨x, hx, hfx⟩
        exact ha (hf hfx ▸ hx)
      rw [if_neg hfa, if_neg ha, List.map_cons]
      rw [show (f a :: seen.map f) = ((a :: seen).map f) from rfl, ih]

theorem pyDedup_map [DecidableEq α] [DecidableEq β] {f : α → β}
    (hf : Function.Injective f) (l : List α) :
    pyDedup (l.map f) = (pyDedup l).map f := by
  simpa [pyDedup] using pyDedupGo_map hf l []

theorem token_cancel {c c2 : Txt} {n : Nat} (h : token c n = token c2 n) : c = c2 :=
  List.append_cancel_right h

theorem sampleGo_invariant (ds : List (Txt × Txt)) (draws : Nat → Txt × Txt) (num : Nat) :
    ∀ (fuel i : Nat) (acc out : List (Txt × Txt)),
      acc.length ≤ num → (∀ p ∈ acc, p ∉ ds) →
      sampleGo ds draws num fuel i acc = some out →
      out.length = num ∧ ∀ p ∈ out, p ∉ ds := by
  intro fuel
  induction fuel with
  | zero =>
    intro i acc out hlen hmem h
    simp only [sampleGo] at h
    by_cases hge : num ≤ acc.length
    · simp only [hge, if_true, Option.some.injEq] at h
      subst h
      exact ⟨Nat.le_antisymm hlen hge, hmem⟩
    · simp [hge] at h
  | succ f ih =>
    intro i acc out hlen hmem h
    simp only [sampleGo] at h
    by_cases hge : num ≤ acc.length
    · simp only [hge, if_true, Option.some.injEq] at h
      subst h
      exact ⟨Nat.le_antisymm hlen hge, hmem⟩
    · simp only [hge, if_false] at h
      by_cases hmem2 : draws i ∈ ds
      · simp only [hmem2, if_true] at h
        exact ih (i + 1) acc out hlen hmem h
      · simp only [hmem2, if_false] at h
        refine ih (i + 1) (acc ++ [draws i]) out ?_ ?_ h
        · simp only [List.length_append, List.length_cons, List.length_nil]
          omega
        · intro p hp
          rcases List.mem_append.mp hp with hp | hp
          · exact hmem p hp
          · rcases List.mem_singleton.mp hp with rfl
            exact hmem2

theorem templateRule_ok_elim {cat xStr yStr : Txt} {al : List Alignment} {t : Rule}
    (h : templateRule cat xStr yStr al = .ok t) :
    ∃ xn yn, splice xStr (xSwapsOf al) = .ok xn ∧ splice yStr (ySwapsOf al) = .ok yn ∧
      t = (cat, xn, yn) := by
  unfold templateRule at h
  cases hx : splice xStr (xSwapsOf al) with
  | error e => rw [hx] at h; simp at h
  | ok xn =>
    cases hy : splice yStr (ySwapsOf al) with
    | error e => rw [hx, hy] at h; simp at h
    | ok yn =>
      rw [hx, hy] at h
      simp only [Except.ok.injEq] at h
      exact ⟨xn, yn, rfl, rfl, h.symm⟩

theorem induce_nesting_ok_parts {domNest : Txt → Txt → List Alignment × List Rule} :
    ∀ {rules g : List Rule}, induce_nesting_grammar domNest rules = .ok g →
      ∀ r ∈ rules, (∀ p ∈ (domNest r.2.1 r.2.2).2, p ∈ g) ∧
        ∃ t : Rule, templateRule r.1 r.2.1 r.2.2 (domNest r.2.1 r.2.2).1 = .ok t ∧ t ∈ g := by
  intro rules
  induction rules with
  | nil => intro g _ r hr; simp at hr
  | cons r0 rest ih =>
    intro g h r hr
    unfold induce_nesting_grammar at h
    cases ht : templateRule r0.1 r0.2.1 r0.2.2 (domNest r0.2.1 r0.2.2).1 with
    | error e => rw [ht] at h; simp at h
    | ok t0 =>
      cases hts : induce_nesting_grammar domNest rest with
      | error e => rw [ht, hts] at h; simp at h
      | ok ts =>
        rw [ht, hts] at h
        simp only [Except.ok.injEq] at h
        subst h
        rcases List.mem_cons.mp hr with rfl | hr
        · refine ⟨?_, t0, ht, ?_⟩
          · intro p hp
            exact List.mem_append.mpr (Or.inl hp)
          · exact List.mem_append.mpr (Or.inr (List.mem_cons_self _ _))
        · rcases ih hts r hr with ⟨hprod, t, htr, htm⟩
          refine ⟨?_, t, htr, ?_⟩
          · intro p hp
            exact List.mem_append.mpr (Or.inr (List.mem_cons_of_mem _ (hprod p hp)))
          · exact List.mem_append.mpr (Or.inr (List.mem_cons_of_mem _ htm))

end DataRecomb

namespace DataRecomb

theorem splice_ok_wf_shape {s t : Txt} {swaps : List Swap}
    (h : splice s swaps = .ok t)
    (hwf : ∀ sw ∈ swaps, sw.1.1 ≤ sw.1.2) :
    t = replaceAll s 0 (sortSwaps swaps).reverse := by
  have hwf2 : ∀ sw ∈ sortSwaps swaps, sw.1.1 ≤ sw.1.2 :=
    fun sw hs => hwf sw ((sortSwaps_perm swaps).mem_iff.mp hs)
  have hgo : spliceGo (sortSwaps swaps) s.length s = .ok t := h
  have hchain := spliceGo_ok_chain _ _ _ _ hgo
  have hshape := spliceGo_eq_descReplace _ _ _ hwf2 hchain (le_refl _)
  rw [hgo] at hshape
  simp only [Except.ok.injEq] at hshape
  have hsep := sortedChain_sep _ _ (sortSwaps_sorted swaps) hchain
  have hconv := descReplace_eq_replaceAll _ s hsep hwf2
  exact hshape.trans hconv

theorem splice_insert_back (s rep : Txt) (a b : Nat) (hab : a ≤ b) (hbs : b ≤ s.length) :
    splice (s.take a ++ rep ++ s.drop b) [((a, a + rep.length), pySlice s (a, b))]
      = .ok s := by
  have has : a ≤ s.length := le_trans hab hbs
  have hta : (s.take a).length = a := by
    simp only [List.length_take]
    omega
  have hlen : a + rep.length ≤ (s.take a ++ rep ++ s.drop b).length := by
    simp only [List.length_append, hta]
    omega
  rw [splice_single _ _ _ _ hlen]
  have h1 : (s.take a ++ rep ++ s.drop b).take a = s.take a := by
    rw [List.append_assoc, List.take_append_of_le_length (le_of_eq hta.symm),
      List.take_take, Nat.min_self]
  have h2 : (s.take a ++ rep ++ s.drop b).drop (a + rep.length) = s.drop b := by
    have hl : (s.take a ++ rep).length = a + rep.length := by
      simp only [List.length_append, hta]
    rw [show a + rep.length = (s.take a ++ rep).length from hl.symm, List.drop_left]
  rw [h1, h2]
  have h3 : (s.take b).take a = s.take a := by rw [List.take_take, Nat.min_eq_left hab]
  have h4 : s.take a ++ pySlice s (a, b) ++ s.drop b = s := by
    calc s.take a ++ pySlice s (a, b) ++ s.drop b
        = (s.take b).take a ++ (s.take b).drop a ++ s.drop b := by rw [h3]; rfl
      _ = s.take b ++ s.drop b := by rw [List.take_append_drop]
      _ = s := List.take_append_drop b s
  rw [h4]

end DataRecomb

namespace DataRecomb

/-- Claim C1: whenever Augmenter.sample(n) returns, it returns exactly n
pairs, and every returned pair is absent (as an exact string-pair match)
from the pair set of the original dataset; a drawn pair equal to a dataset pair
is discarded and resampling continues.  The grammar generator is
modelled as a draw stream and the unbounded loop with a fuel bound, `some`
meaning the loop returned. -/
theorem c1_sample_exact_and_fresh (dataset : List (Txt × Txt)) (draws : Nat → Txt × Txt)
    (num fuel : Nat) (out : List (Txt × Txt))
    (h : sample dataset draws num fuel = some out) :
    out.length = num ∧ ∀ p ∈ out, p ∉ dataset := by
  refine sampleGo_invariant dataset draws num fuel 0 [] out ?_ ?_ h
  · simp
  · simp

/-- Witness for C1 at a concrete dataset, draw stream and count. -/
theorem c1_sample_witness :
    [("c".data, "d".data)].length = 1 ∧
      ∀ p ∈ [("c".data, "d".data)], p ∉ [("a".data, "b".data)] :=
  c1_sample_exact_and_fresh [("a".data, "b".data)]
    (fun i => if i = 0 then ("a".data, "b".data) else ("c".data, "d".data)) 1 2
    [("c".data, "d".data)] (by decide)

/-- Claim C2, counterexample to the statement as written: these two spans
are pairwise disjoint (the first is empty) and lie inside the string, yet
splice raises the non-disjoint-spans error instead of returning the
replaced string, because the empty span sorts before the enclosing span
and lowers the high-water mark to 5. -/
theorem c2_splice_empty_span_counterexample :
    ([((5, 5), "X".data), ((2, 9), "Y".data)].Pairwise
        fun p q : Swap => ¬ spanOverlap p.1 q.1) ∧
    (∀ sw ∈ [((5, 5), "X".data), ((2, 9), "Y".data)],
        sw.1.1 ≤ sw.1.2 ∧ sw.1.2 ≤ "abcdefghij".data.length) ∧
    splice "abcdefghij".data [((5, 5), "X".data), ((2, 9), "Y".data)]
      = .error nonDisjointMsg :=
  ⟨by decide, by decide, by rfl⟩

/-- Claim C2 (amended: the pairwise-disjoint spans must also be nonempty):
splice then succeeds and returns the string in which every span is
replaced by its replacement with all untouched text kept in order (stated
through an ascending reordering of the swaps and the specification
function replaceAll), and the output length is the original length minus
the total replaced length plus the total replacement length. -/
theorem c2_splice_disjoint_spec (s : Txt) (swaps : List Swap)
    (hdisj : swaps.Pairwise fun p q => ¬ spanOverlap p.1 q.1)
    (hne : ∀ sw ∈ swaps, sw.1.1 < sw.1.2)
    (hin : ∀ sw ∈ swaps, sw.1.2 ≤ s.length) :
    ∃ asc : List Swap, List.Perm asc swaps ∧
      (asc.Pairwise fun p q => p.1.2 ≤ q.1.1) ∧
      splice s swaps = .ok (replaceAll s 0 asc) ∧
      (replaceAll s 0 asc).length + sumSpanLens swaps = s.length + sumRepLens swaps := by
  have hsymm : ∀ {x y : Swap}, ¬ spanOverlap x.1 y.1 → ¬ spanOverlap y.1 x.1 :=
    fun hxy hyx => hxy (spanOverlap_symm hyx)
  have hdisj2 := ((sortSwaps_perm swaps).pairwise_iff hsymm).mpr hdisj
  have hne2 : ∀ sw ∈ sortSwaps swaps, sw.1.1 < sw.1.2 :=
    fun sw hs => hne sw ((sortSwaps_perm swaps).mem_iff.mp hs)
  have hin2 : ∀ sw ∈ sortSwaps swaps, sw.1.2 ≤ s.length :=
    fun sw hs => hin sw ((sortSwaps_perm swaps).mem_iff.mp hs)
  have hchain : chainCond (sortSwaps swaps) s.length :=
    chainCond_of_disjoint _ _ (sortSwaps_sorted swaps) hdisj2 hne2 hin2
  have hwf2 : ∀ sw ∈ sortSwaps swaps, sw.1.1 ≤ sw.1.2 :=
    fun sw hs => Nat.le_of_lt (hne2 sw hs)
  have hok : splice s swaps = .ok (descReplace s (sortSwaps swaps)) :=
    spliceGo_eq_descReplace _ _ _ hwf2 hchain (le_refl _)
  have hsep := sortedChain_sep _ _ (sortSwaps_sorted swaps) hchain
  have hconv := descReplace_eq_replaceAll _ s hsep hwf2
  have hlen := descReplace_length _ _ _ hwf2 hchain (le_refl s.length)
  have hs1 : sumSpanLens (sortSwaps swaps) = sumSpanLens swaps := by
    unfold sumSpanLens
    exact List.Perm.sum_eq ((sortSwaps_perm swaps).map _)
  have hs2 : sumRepLens (sortSwaps swaps) = sumRepLens swaps := by
    unfold sumRepLens
    exact List.Perm.sum_eq ((sortSwaps_perm swaps).map _)
  refine ⟨(sortSwaps swaps).reverse, ?_, ?_, ?_, ?_⟩
  · exact (List.reverse_perm _).trans (sortSwaps_perm swaps)
  · exact List.pairwise_reverse.mpr hsep
  · rw [hok, hconv]
  · rw [← hconv]
    omega

/-- Witness for C2 at a concrete string and disjoint nonempty swap list. -/
theorem c2_splice_witness :
    ∃ asc : List Swap,
      List.Perm asc [((1, 3), "X".data), ((4, 5), "YZ".data)] ∧
      (asc.Pairwise fun p q => p.1.2 ≤ q.1.1) ∧
      splice "hello".data [((1, 3), "X".data), ((4, 5), "YZ".data)]
        = .ok (replaceAll "hello".data 0 asc) ∧
      (replaceAll "hello".data 0 asc).length
          + sumSpanLens [((1, 3), "X".data), ((4, 5), "YZ".data)]
        = "hello".data.length + sumRepLens [((1, 3), "X".data), ((4, 5), "YZ".data)] :=
  c2_splice_disjoint_spec "hello".data [((1, 3), "X".data), ((4, 5), "YZ".data)]
    (by decide) (by decide) (by decide)

/-- Claim C3: whenever two spans of the swap list (at distinct positions)
have a non-empty intersection, splice deterministically raises the
ValueError with message Non-disjoint spans detected. -/
theorem c3_overlap_raises (s : Txt) (swaps : List Swap)
    (h : ∃ i j : Fin swaps.length, i ≠ j ∧
      spanOverlap (swaps.get i).1 (swaps.get j).1) :
    splice s swaps = .error nonDisjointMsg := by
  cases hres : splice s swaps with
  | ok t =>
    exfalso
    obtain ⟨i, j, hij, hov⟩ := h
    have hp2 := List.pairwise_iff_get.mp (splice_ok_pairwise_disjoint hres)
    rcases lt_or_gt_of_ne hij with hlt | hgt
    · exact hp2 i j hlt hov
    · exact hp2 j i hgt (spanOverlap_symm hov)
  | error e =>
    have hmsg : e = nonDisjointMsg := spliceGo_error_msg _ _ _ _ hres
    rw [hmsg]

/-- Witness for C3 at a concrete overlapping span pair. -/
theorem c3_overlap_witness :
    splice "hello".data [((0, 3), "A".data), ((2, 5), "B".data)]
      = .error nonDisjointMsg :=
  c3_overlap_raises "hello".data [((0, 3), "A".data), ((2, 5), "B".data)]
    ⟨⟨0, by decide⟩, ⟨1, by decide⟩, by decide, by decide⟩

/-- Claim C10: with well-formed spans (start at most end, the half-open
intervals of the data model), splice raises the non-disjoint-spans ValueError
whenever some span end exceeds the length of the input string, even if
the spans are pairwise disjoint: it completes without error only when
every span lies within the bounds set by the initial high-water mark
len(s). -/
theorem c10_out_of_bounds_raises (s : Txt) (swaps : List Swap)
    (hwf : ∀ sw ∈ swaps, sw.1.1 ≤ sw.1.2)
    (h : ∃ sw ∈ swaps, s.length < sw.1.2) :
    splice s swaps = .error nonDisjointMsg := by
  cases hres : splice s swaps with
  | ok t =>
    exfalso
    obtain ⟨sw, hsw, hlen⟩ := h
    have hgo : spliceGo (sortSwaps swaps) s.length s = .ok t := hres
    have hchain := spliceGo_ok_chain _ _ _ _ hgo
    have hwf2 : ∀ sw ∈ sortSwaps swaps, sw.1.1 ≤ sw.1.2 :=
      fun sw hs => hwf sw ((sortSwaps_perm swaps).mem_iff.mp hs)
    have := chainCond_wf_endsLe _ _ hchain hwf2 sw ((sortSwaps_perm swaps).mem_iff.mpr hsw)
    omega
  | error e =>
    have hmsg : e = nonDisjointMsg := spliceGo_error_msg _ _ _ _ hres
    rw [hmsg]

/-- Witness for C10 at a concrete span reaching past the end of the string. -/
theorem c10_out_of_bounds_witness :
    splice "ab".data [((0, 5), "X".data)] = .error nonDisjointMsg :=
  c10_out_of_bounds_raises "ab".data [((0, 5), "X".data)] (by decide)
    ⟨((0, 5), "X".data), by decide, by decide⟩

end DataRecomb

namespace DataRecomb

/-- Claim C4, counterexample to the statement as written: with one x-span
aligned to two y-spans, the entity strategy inserts a templated rule whose
x_pattern contains the shared placeholder token once but whose y_pattern
contains it twice, so the two patterns do not reference the same multiset
of placeholder tokens. -/
theorem c4_token_multiset_counterexample :
    induce_entity_grammar
        (fun _ _ => [("c".data, (0, 2), (0, 2)), ("c".data, (0, 2), (3, 6))]) []
        [("$r".data, "ab".data, "cd efg".data)]
      = .ok [("$r".data, "c_0".data, "c_0 c_0".data)] ∧
    countOccs "c_0".data "c_0".data = 1 ∧
    countOccs "c_0".data "c_0 c_0".data = 2 :=
  ⟨by rfl, by decide, by decide⟩

/-- Claim C4 (amended: same SET instead of same multiset): for every
alignment list the domain may return, the set of placeholder tokens the
entity and nesting strategies splice into the x_pattern of a templated rule
equals the set they splice into its y_pattern (one x anchor may still seed
several y-side copies of its token). -/
theorem c4_token_sets_equal (al : List Alignment) :
    ((xSwapsOf al).map Prod.snd).toFinset = ((ySwapsOf al).map Prod.snd).toFinset := by
  apply Finset.ext
  intro tok
  simp only [List.mem_toFinset, List.mem_map]
  constructor
  · rintro ⟨sw, hsw, rfl⟩
    have hmem := (pyDedup_mem _ _).mp hsw
    rcases List.mem_map.mp hmem with ⟨t, ht, rfl⟩
    exact ⟨(t.2.2, token t.1 t.2.1.1), List.mem_map.mpr ⟨t, ht, rfl⟩, rfl⟩
  · rintro ⟨sw, hsw, rfl⟩
    rcases List.mem_map.mp hsw with ⟨t, ht, rfl⟩
    exact ⟨(t.2.1, token t.1 t.2.1.1),
      (pyDedup_mem _ _).mpr (List.mem_map.mpr ⟨t, ht, rfl⟩), rfl⟩

/-- Claim C5, counterexample to the statement as written: two alignments
sharing the inner category and the x-span start but with different x-span
ends form a single (inner category, x-span start) key, yet the code
deduplicates by the whole (x-span, token) pair and splices two x-side
placeholders, as the x_pattern of the inserted rule shows. -/
theorem c5_dedup_key_counterexample :
    induce_entity_grammar
        (fun _ _ => [("c".data, (0, 0), (0, 1)), ("c".data, (0, 2), (2, 3))]) []
        [("$r".data, "ab".data, "cde".data)]
      = .ok [("$r".data, "c_0c_0".data, "c_0dc_0".data)] ∧
    (specXKeys [("c".data, (0, 0), (0, 1)), ("c".data, (0, 2), (2, 3))]).length = 1 ∧
    (xSwapsOf [("c".data, (0, 0), (0, 1)), ("c".data, (0, 2), (2, 3))]).length = 2 ∧
    countOccs "c_0".data "c_0c_0".data = 2 :=
  ⟨by rfl, by decide, by decide, by decide⟩

/-- Claim C5 (amended: the x-side deduplication key is the pair (inner
category, whole x-span), not (inner category, x-span start)): the x-side
swap list carries one placeholder per distinct (inner category, x-span)
key, each keyed span replaced by the token of its category and start, and
the y-side swap list carries one placeholder per alignment with no
deduplication, each y-side token equal to the token of the inner
category and x-span start of the alignment. -/
theorem c5_dedup_key_spec (al : List Alignment) :
    xSwapsOf al = (xKeySpans al).map (fun p => (p.2, token p.1 p.2.1)) ∧
    ySwapsOf al = al.map fun t => (t.2.2, token t.1 t.2.1.1) := by
  constructor
  · have hinj : Function.Injective (fun p : Txt × Span => (p.2, token p.1 p.2.1)) := by
      rintro ⟨c1, sp1⟩ ⟨c2, sp2⟩ h
      simp only [Prod.mk.injEq] at h
      obtain ⟨hsp, htok⟩ := h
      subst hsp
      exact congrArg (fun c => (c, sp1)) (token_cancel htok)
    have hfuse : (al.map fun t => (t.2.1, token t.1 t.2.1.1))
        = (al.map fun t => (t.1, t.2.1)).map (fun p => (p.2, token p.1 p.2.1)) := by
      rw [List.map_map]
      rfl
    show pyDedup (al.map fun t => (t.2.1, token t.1 t.2.1.1)) = _
    rw [hfuse, pyDedup_map hinj]
    rfl
  · rfl

/-- Claim C6: for a parent rule with a single alignment inside it, the
entity/nesting template construction succeeds, and splicing the
own literal x-span text of the alignment (resp. y-span text) back into the
placeholder of the templated x_pattern (resp. y_pattern) reproduces the
original x_str and y_str of the parent exactly. -/
theorem c6_entity_roundtrip (cat xStr yStr cI : Txt) (a b c d : Nat)
    (hab : a ≤ b) (hbx : b ≤ xStr.length) (hcd : c ≤ d) (hdy : d ≤ yStr.length) :
    ∃ xn yn, templateRule cat xStr yStr [(cI, (a, b), (c, d))] = .ok (cat, xn, yn) ∧
      splice xn [((a, a + (token cI a).length), pySlice xStr (a, b))] = .ok xStr ∧
      splice yn [((c, c + (token cI a).length), pySlice yStr (c, d))] = .ok yStr := by
  have hx1 : xSwapsOf [(cI, (a, b), (c, d))] = [((a, b), token cI a)] := by
    simp [xSwapsOf, pyDedup, pyDedupGo]
  have hy1 : ySwapsOf [(cI, (a, b), (c, d))] = [((c, d), token cI a)] := by
    simp [ySwapsOf]
  refine ⟨xStr.take a ++ token cI a ++ xStr.drop b,
          yStr.take c ++ token cI a ++ yStr.drop d, ?_, ?_, ?_⟩
  · unfold templateRule
    rw [hx1, hy1, splice_single _ _ _ _ hbx, splice_single _ _ _ _ hdy]
  · exact splice_insert_back xStr (token cI a) a b hab hbx
  · exact splice_insert_back yStr (token cI a) c d hcd hdy

/-- Witness for C6 at a concrete parent rule and alignment. -/
theorem c6_roundtrip_witness :
    ∃ xn yn,
      templateRule "$r".data "what states border texas ?".data
          "answer ( state ( texas ) )".data
          [("$state".data, (19, 24), (18, 23))] = .ok ("$r".data, xn, yn) ∧
      splice xn [((19, 19 + (token "$state".data 19).length),
        pySlice "what states border texas ?".data (19, 24))]
        = .ok "what states border texas ?".data ∧
      splice yn [((18, 18 + (token "$state".data 19).length),
        pySlice "answer ( state ( texas ) )".data (18, 23))]
        = .ok "answer ( state ( texas ) )".data :=
  c6_entity_roundtrip "$r".data "what states border texas ?".data
    "answer ( state ( texas ) )".data "$state".data 19 24 18 23
    (by decide) (by decide) (by decide) (by decide)

end DataRecomb

namespace DataRecomb

/-- Claim C7: when nesting induction succeeds, every production the domain
returned for a base rule is inserted into the new grammar verbatim
(unchanged text and category), and the templated rule inserted for the
base rule keeps the base category while its two sides are the splice of
the alignment swaps into the base texts; with well-formed spans the
spliced sides equal the specification replacement, which changes nothing
outside the spliced spans. -/
theorem c7_nesting_spec (domNest : Txt → Txt → List Alignment × List Rule)
    (startRules g : List Rule) (h : induce_nesting_grammar domNest startRules = .ok g)
    (r : Rule) (hr : r ∈ startRules) :
    (∀ p ∈ (domNest r.2.1 r.2.2).2, p ∈ g) ∧
    ∃ xn yn, (r.1, xn, yn) ∈ g ∧
      splice r.2.1 (xSwapsOf (domNest r.2.1 r.2.2).1) = .ok xn ∧
      splice r.2.2 (ySwapsOf (domNest r.2.1 r.2.2).1) = .ok yn ∧
      ((∀ sw ∈ xSwapsOf (domNest r.2.1 r.2.2).1, sw.1.1 ≤ sw.1.2) →
        xn = replaceAll r.2.1 0 (sortSwaps (xSwapsOf (domNest r.2.1 r.2.2).1)).reverse) ∧
      ((∀ sw ∈ ySwapsOf (domNest r.2.1 r.2.2).1, sw.1.1 ≤ sw.1.2) →
        yn = replaceAll r.2.2 0 (sortSwaps (ySwapsOf (domNest r.2.1 r.2.2).1)).reverse) := by
  rcases induce_nesting_ok_parts h r hr with ⟨hprods, t, htr, htm⟩
  rcases templateRule_ok_elim htr with ⟨xn, yn, hx, hy, rfl⟩
  exact ⟨hprods, xn, yn, htm, hx, hy,
    fun hwf => splice_ok_wf_shape hx hwf, fun hwf => splice_ok_wf_shape hy hwf⟩

/-- Witness for C7 at a concrete domain and base grammar. -/
theorem c7_nesting_witness :
    (∀ p ∈ [("$p".data, "xx".data, "yy".data)],
        p ∈ [("$p".data, "xx".data, "yy".data), ("$r".data, "c_0".data, "c_0".data)]) ∧
    ∃ xn yn,
      ("$r".data, xn, yn)
          ∈ [("$p".data, "xx".data, "yy".data), ("$r".data, "c_0".data, "c_0".data)] ∧
      splice "ab".data (xSwapsOf [("c".data, (0, 2), (0, 2))]) = .ok xn ∧
      splice "cd".data (ySwapsOf [("c".data, (0, 2), (0, 2))]) = .ok yn ∧
      ((∀ sw ∈ xSwapsOf [("c".data, (0, 2), (0, 2))], sw.1.1 ≤ sw.1.2) →
        xn = replaceAll "ab".data 0
          (sortSwaps (xSwapsOf [("c".data, (0, 2), (0, 2))])).reverse) ∧
      ((∀ sw ∈ ySwapsOf [("c".data, (0, 2), (0, 2))], sw.1.1 ≤ sw.1.2) →
        yn = replaceAll "cd".data 0
          (sortSwaps (ySwapsOf [("c".data, (0, 2), (0, 2))])).reverse) :=
  c7_nesting_spec
    (fun _ _ => ([("c".data, (0, 2), (0, 2))], [("$p".data, "xx".data, "yy".data)]))
    [("$r".data, "ab".data, "cd".data)]
    [("$p".data, "xx".data, "yy".data), ("$r".data, "c_0".data, "c_0".data)]
    (by rfl) ("$r".data, "ab".data, "cd".data) (by decide)

/-- Claim C8: the concatenation strategy copies every base rule unchanged
except that rules under the ROOT of the base grammar are re-inserted under the
sentence category with unchanged text, exactly one ROOT rule occurs in the
result, it is the added one, and its two sides are both the k sentence
placeholders joined by the bracketed SEP separator padded by spaces. -/
theorem c8_concat_spec (startRules : List Rule) (k : Nat) :
    (∀ r ∈ startRules, r.1 ≠ ROOT_CAT →
      r ∈ induce_concat_grammar startRules (Int.ofNat k)) ∧
    (∀ r ∈ startRules, r.1 = ROOT_CAT →
      (SENTENCE_CAT, r.2.1, r.2.2) ∈ induce_concat_grammar startRules (Int.ofNat k)) ∧
    (induce_concat_grammar startRules (Int.ofNat k)).countP
      (fun r => decide (r.1 = ROOT_CAT)) = 1 ∧
    (ROOT_CAT, rootConcatStr (Int.ofNat k), rootConcatStr (Int.ofNat k))
      ∈ induce_concat_grammar startRules (Int.ofNat k) ∧
    rootConcatStr (Int.ofNat k)
      = joinWith (' ' :: (END_OF_SENTENCE ++ [' '])) ((List.range k).map sentenceTok) ∧
    ((List.range k).map sentenceTok).length = k ∧
    (induce_concat_grammar startRules (Int.ofNat k)).length = startRules.length + 1 := by
  have hsr : SENTENCE_CAT ≠ ROOT_CAT := by decide
  refine ⟨?_, ?_, ?_, ?_, ?_, ?_, ?_⟩
  · intro r hr hne
    exact List.mem_append.mpr (Or.inl (List.mem_map.mpr ⟨r, hr, if_neg hne⟩))
  · intro r hr heq
    exact List.mem_append.mpr (Or.inl (List.mem_map.mpr ⟨r, hr, if_pos heq⟩))
  · unfold induce_concat_grammar
    rw [List.countP_append]
    have h0 : (startRules.map fun r =>
        if r.1 = ROOT_CAT then (SENTENCE_CAT, r.2.1, r.2.2) else r).countP
          (fun r => decide (r.1 = ROOT_CAT)) = 0 := by
      rw [List.countP_eq_zero]
      intro x hx
      rcases List.mem_map.mp hx with ⟨r, _, rfl⟩
      by_cases hroot : r.1 = ROOT_CAT
      · rw [if_pos hroot]
        simp [hsr]
      · rw [if_neg hroot]
        simp [hroot]
    rw [h0]
    simp [List.countP_cons]
  · exact List.mem_append.mpr (Or.inr (List.mem_singleton.mpr rfl))
  · rfl
  · simp
  · unfold induce_concat_grammar
    simp

/-- Witness for C8 at a concrete non-root base rule. -/
theorem c8_concat_witness :
    ("$x".data, "a".data, "b".data)
      ∈ induce_concat_grammar [("$x".data, "a".data, "b".data)] (Int.ofNat 2) :=
  (c8_concat_spec [("$x".data, "a".data, "b".data)] 2).1
    ("$x".data, "a".data, "b".data) (by decide) (by decide)

/-- Claim C9, counterexample to the statement as written: the identifier
concatx is neither entity, nor nesting, nor a supported concatenation
identifier, yet the setup_grammar dispatch does not skip it: the leading-substring test
matches and parsing the suffix x as an int raises ValueError. -/
theorem c9_concat_suffix_counterexample :
    "concatx".data ≠ "entity".data ∧ "concatx".data ≠ "nesting".data ∧
    setupStep (fun _ _ => []) (fun _ _ => ([], [])) [] [] "concatx".data
      = .error intErrMsg :=
  ⟨by decide, by decide, by rfl⟩

/-- Claim C9 (amended: restricted to identifiers that do not start with
concat): a strategy identifier that is not entity, not nesting, and does
not start with concat is silently skipped, the step returning the current
grammar unchanged and raising no error.  Identifiers that do start with
concat are instead parsed for an integer suffix and raise ValueError when
the suffix is not an integer literal. -/
theorem c9_unknown_skipped (domAlign : Txt → Txt → List Alignment)
    (domNest : Txt → Txt → List Alignment × List Rule)
    (dataset : List (Txt × Txt)) (g : List Rule) (t : Txt)
    (h1 : t ≠ "entity".data) (h2 : t ≠ "nesting".data)
    (h3 : leadsWith "concat".data t = false) :
    setupStep domAlign domNest dataset g t = .ok g := by
  have h3x : ¬ (leadsWith "concat".data t = true) := by
    rw [h3]
    simp
  unfold setupStep
  rw [if_neg h1, if_neg h2, if_neg h3x]

/-- Witness for C9 at a concrete unknown identifier. -/
theorem c9_unknown_witness :
    setupStep (fun _ _ => []) (fun _ _ => ([], [])) [] [] "shuffle".data = .ok [] :=
  c9_unknown_skipped (fun _ _ => []) (fun _ _ => ([], [])) [] [] "shuffle".data
    (by decide) (by decide) (by decide)

end DataRecomb
